import Mathlib

/-!
Verification development for the Win32 CRT replacement layer
(src/native/win32-crt.c).  The C functions are shallowly embedded:

* character codes are natural numbers (the C char viewed as unsigned),
  the NUL terminator is code 0; a C string is modelled as the list of its
  characters before the terminator (all nonzero);
* byte memory is a function from addresses (Nat) to values;
* OS primitives (HeapAlloc, WideCharToMultiByte, ...) that are external to
  the repository are abstract parameters of the embedding.
-/

namespace CRT

/-- Embedding of isspace (win32-crt.c line 515): the six ASCII whitespace
characters, space 32, tab 9, newline 10, carriage return 13, form feed 12,
vertical tab 11. -/
def isspaceB (c : Nat) : Bool :=
  c = 32 || c = 9 || c = 10 || c = 13 || c = 12 || c = 11

/-! ### strncpy (win32-crt.c lines 172-177)

The C code is
  while (count && (*d++ = *src++)) count--;
  while (count--) *d++ = a zero;
The first loop writes one element per iteration but decrements count only
when the element written was nonzero; in particular when the terminator of
src is copied, count is not decremented.  copyLoop returns the list of
values written by the first loop together with the value of count when the
first loop exits; the second loop then writes that many zeros.
wcsncpy (lines 179-184) is the same code over 16-bit elements and is
covered by the same model. -/

def copyLoop : List Nat → Nat → List Nat × Nat
  | _, 0 => ([], 0)
  | [], Nat.succ k => ([0], k + 1)
  | c :: rest, Nat.succ k =>
    if c = 0 then ([0], k + 1)
    else
      let p := copyLoop rest k
      (c :: p.1, p.2)

/-- The full sequence of values strncpy writes to consecutive destination
addresses starting at dest: the copy loop's writes followed by the pad
loop's zeros. -/
def strncpyWrites (src : List Nat) (count : Nat) : List Nat :=
  let p := copyLoop src count
  p.1 ++ List.replicate p.2 0

/-! ### strncat (win32-crt.c lines 193-199)

  while (*d) d++;
  while (count-- && (*d++ = *src++));
  if (count == (size_t)-1) *(d-1) = 0;
catLoop returns the values written by the copy loop and whether the loop
exited because count was exhausted (count ended as size_t minus one), in
which case the code overwrites the element just before the final write
position with a terminator. -/

def catLoop : List Nat → Nat → List Nat × Bool
  | _, 0 => ([], true)
  | [], Nat.succ _ => ([0], false)
  | c :: rest, Nat.succ k =>
    if c = 0 then ([0], false)
    else
      let p := catLoop rest k
      (c :: p.1, p.2)

/-- Resulting string (characters before the first terminator) after
strncat(dest, src, count): the destination buffer holds dest followed by
the copy loop's writes; when the loop exhausted count, the element just
before the final write position is overwritten with 0. -/
def strncatModel (dest src : List Nat) (count : Nat) : List Nat :=
  let p := catLoop src count
  let buf := dest ++ p.1
  let buf2 := if p.2 then buf.take (buf.length - 1) ++ [0] else buf
  buf2.takeWhile (fun c => c != 0)

/-! ### memmove (win32-crt.c lines 88-103)

Byte memory is a function from addresses to values.  The code compares the
destination and source pointers: below, it copies forward one byte at a
time; above, it copies backward from the top; equal, it does nothing. -/

/-- A single byte store. -/
def memWrite (m : Nat → Nat) (a v : Nat) : Nat → Nat :=
  fun x => if x = a then v else m x

/-- Forward copy loop: while (count--) *d++ = *s++. -/
def memmoveFwd : (Nat → Nat) → Nat → Nat → Nat → (Nat → Nat)
  | m, _, _, 0 => m
  | m, d, s, n + 1 => memmoveFwd (memWrite m d (m s)) (d + 1) (s + 1) n

/-- Backward copy loop: d += count; s += count; while (count--) *--d = *--s.
The top byte (offset n) is written first, then the lower n bytes. -/
def memmoveBwd : (Nat → Nat) → Nat → Nat → Nat → (Nat → Nat)
  | m, _, _, 0 => m
  | m, d, s, n + 1 => memmoveBwd (memWrite m (d + n) (m (s + n))) d s n

/-- Embedding of memmove: direction chosen by comparing the destination and
source addresses; no writes when they coincide. -/
def memmoveM (m : Nat → Nat) (d s n : Nat) : Nat → Nat :=
  if d < s then memmoveFwd m d s n
  else if s < d then memmoveBwd m d s n
  else m

/-! ### Heap functions (win32-crt.c lines 29-55)

The process heap is external to the repository; it is modelled as an
abstract state type together with the three OS primitives the code calls.
Addresses are natural numbers; the null pointer is Option.none. -/

structure OsHeap (σ : Type) where
  heapAlloc : σ → Nat → σ × Option Nat
  heapReAlloc : σ → Nat → Nat → σ × Option Nat
  heapFree : σ → Nat → σ

/-- Embedding of malloc (lines 29-32): a zero size is bumped to 1, then
HeapAlloc is called. -/
def malloc {σ : Type} (H : OsHeap σ) (s : σ) (size : Nat) : σ × Option Nat :=
  H.heapAlloc s (if size = 0 then 1 else size)

/-- Embedding of realloc (lines 40-49): null block goes to malloc, zero
size frees the block and returns null, otherwise HeapReAlloc is called. -/
def realloc {σ : Type} (H : OsHeap σ) (s : σ) (ptr : Option Nat) (size : Nat) :
    σ × Option Nat :=
  match ptr with
  | none => malloc H s size
  | some p => if size = 0 then (H.heapFree s p, none) else H.heapReAlloc s p size

/-! ### _aligned_malloc and _aligned_free (win32-crt.c lines 58-71)

  void* raw = malloc(size + alignment + sizeof(void*));
  void* aligned = (void*)(((size_t)raw + sizeof(void*) + alignment - 1)
                          and the complement of (alignment - 1));
  ((void**)aligned)[-1] = raw;
and _aligned_free(ptr) frees ((void**)ptr)[-1].  Addresses are 64-bit
size_t values, so the sum is reduced mod 2 to the 64 and the bitwise
complement is xor against 2 to the 64 minus 1; sizeof(void*) is 8.  The
back-pointer store is a word store at byte address aligned - 8, modelled
with memWrite on a word-granular view of the block's memory. -/

/-- The aligned payload address computed by _aligned_malloc. -/
def alignedOf (raw align : Nat) : Nat :=
  ((raw + 8 + align - 1) % 2 ^ 64) &&& ((2 ^ 64 - 1) ^^^ (align - 1))

/-- Embedding of _aligned_malloc given that the base allocation succeeded
at address raw: stores raw in the word just before the payload and returns
the updated memory and the payload address. -/
def alignedMalloc (m : Nat → Nat) (raw align : Nat) : (Nat → Nat) × Nat :=
  (memWrite m (alignedOf raw align - 8) raw, alignedOf raw align)

/-- Embedding of _aligned_free on a non-null ptr: returns the address it
passes to free, namely the word stored just before the payload. -/
def alignedFree (m : Nat → Nat) (p : Nat) : Nat := m (p - 8)

/-! ### wctomb and mbtowc (win32-crt.c lines 791-800)

  int wctomb(char* s, wchar_t wc):
    if (s == NULL) return 0;
    return WideCharToMultiByte(UTF8, 0, address of wc, 1, s, 6, 0, 0);
  int mbtowc(wchar_t* pwc, const char* s, size_t n):
    if (s == NULL) return 0;
    result = MultiByteToWideChar(UTF8, 0, s, (int)n, pwc, 1);
    return result greater than 0 ? result : -1;
The OS conversion primitives are external; they are modelled as functions
returning the produced element count, with 0 meaning failure (the Win32
convention).  The null test on the caller's pointer is modelled by a
Boolean flag. -/

/-- Embedding of wctomb: w2mb is the OS primitive converting exactly one
wide character (count of bytes produced, 0 on failure); sNull models
s == NULL. -/
def wctomb (w2mb : Nat → Nat) (sNull : Bool) (wc : Nat) : Int :=
  if sNull then 0 else (w2mb wc : Int)

/-- Embedding of mbtowc: mb2w is the OS primitive converting the first n
input bytes into at most one wide character (count of wide characters
produced, 0 on failure); sNull models s == NULL. -/
def mbtowc (mb2w : List Nat → Nat) (sNull : Bool) (s : List Nat) (n : Nat) : Int :=
  if sNull then 0
  else if 0 < mb2w (s.take n) then (mb2w (s.take n) : Int) else -1
/-! ### qsort (win32-crt.c lines 581-596)

Insertion sort over an abstract element type; the byte-wise memcpy moves of
whole elements become list operations.  The inner while loop
  while (j greater than 0 and compar(arr at j-1, temp) greater than 0) shift;
examines the already-sorted prefix from its right end, shifting elements
one slot to the right while they compare strictly greater than temp, and
places temp in the slot where it stops.  insLoopRev is that scan expressed
on the reversed prefix; insertStep is one iteration of the outer for loop.
The one-element scratch buffer obtained from malloc is modelled by the
scratchOk flag: when the allocation fails the C code returns before
touching the array. -/

def insLoopRev {α : Type} (cmp : α → α → Int) (x : α) : List α → List α
  | [] => [x]
  | e :: rest => if 0 < cmp e x then e :: insLoopRev cmp x rest else x :: e :: rest

/-- One outer-loop iteration of qsort: insert x into the prefix acc by
right-to-left shifting. -/
def insertStep {α : Type} (cmp : α → α → Int) (acc : List α) (x : α) : List α :=
  (insLoopRev cmp x acc.reverse).reverse

/-- Embedding of qsort: when the scratch allocation succeeds, each element
in turn is inserted into the sorted prefix; when it fails the array is
returned untouched. -/
def qsortModel {α : Type} (scratchOk : Bool) (cmp : α → α → Int) (l : List α) :
    List α :=
  if scratchOk then l.foldl (insertStep cmp) [] else l

/-! ### strtol / strtoll / wcstol (win32-crt.c lines 636-674, 680-713, 732-765)

The three signed parsers are textually identical up to element and result
width; they are embedded once, parameterized by the whitespace classifier
(isspace for the narrow variants, the external iswspace macro for wcstol).
The result accumulates in unbounded Int: every claim below concerns values
far from the wrap-around boundary, and signed overflow in C is not defined
behavior, so the embedding does not commit to a wrapping width.
Each phase also reports how many characters it consumed, so that the final
end pointer (as an offset from the start of the input) is the sum of the
consumed counts. -/

/-- Whitespace skip: while (isspace(*p)) p++.  Returns the number of
characters consumed and the rest of the input.  The loop also stops at the
terminator since isspace 0 is false. -/
def skipWs (isSp : Nat → Bool) : List Nat → Nat × List Nat
  | [] => (0, [])
  | c :: rest =>
    if isSp c then
      let p := skipWs isSp rest
      (p.1 + 1, p.2)
    else (0, c :: rest)

/-- Sign handling: a leading minus (45) sets the negative flag, a leading
plus (43) is skipped; returns (negative, consumed, rest). -/
def readSign : List Nat → Bool × Nat × List Nat
  | 45 :: rest => (true, 1, rest)
  | 43 :: rest => (false, 1, rest)
  | l => (false, 0, l)

/-- Base detection: with base 0, a leading 0 followed by x (120) or X (88)
selects base 16 consuming two characters, any other leading 0 selects base
8 consuming one character, otherwise base 10 consuming nothing; with an
explicit base 16 a 0x or 0X prefix is consumed if present; any other base
is left as given.  Returns (base, consumed, rest). -/
def detectBase (base : Int) (l : List Nat) : Int × Nat × List Nat :=
  if base = 0 then
    if l.headD 0 = 48 then
      if l.tail.headD 0 = 120 ∨ l.tail.headD 0 = 88 then (16, 2, l.tail.tail)
      else (8, 1, l.tail)
    else (10, 0, l)
  else if base = 16 then
    if l.headD 0 = 48 ∧ (l.tail.headD 0 = 120 ∨ l.tail.headD 0 = 88) then
      (16, 2, l.tail.tail)
    else (16, 0, l)
  else (base, 0, l)

/-- Digit value of a character per the conversion loop: 0-9 from codes
48-57, then a-z (97-122) as 10-35, then A-Z (65-90) as 10-35; anything
else stops the loop. -/
def digitVal? (c : Nat) : Option Nat :=
  if 48 ≤ c ∧ c ≤ 57 then some (c - 48)
  else if 97 ≤ c ∧ c ≤ 122 then some (c - 97 + 10)
  else if 65 ≤ c ∧ c ≤ 90 then some (c - 65 + 10)
  else none

/-- Conversion loop: while the current character is a digit whose value is
below the base, accumulate acc * base + digit.  Returns the accumulated
value and the number of digits consumed. -/
def digitLoop (base : Int) : List Nat → Int → Int × Nat
  | [], acc => (acc, 0)
  | c :: rest, acc =>
    if c = 0 then (acc, 0)
    else
      match digitVal? c with
      | none => (acc, 0)
      | some d =>
        if (d : Int) < base then
          let p := digitLoop base rest (acc * base + d)
          (p.1, p.2 + 1)
        else (acc, 0)

/-- Full parse: skip whitespace, read the sign, detect the base, run the
conversion loop, negate if a minus sign was seen.  Returns the value, the
total number of characters consumed (the end pointer as an offset from the
given start) and the number of digits consumed by the conversion loop. -/
def strtolCore (isSp : Nat → Bool) (l : List Nat) (base : Int) : Int × Nat × Nat :=
  let w := skipWs isSp l
  let sg := readSign w.2
  let b := detectBase base sg.2.2
  let d := digitLoop b.1 b.2.2 0
  (if sg.1 then -d.1 else d.1, w.1 + sg.2.1 + b.2.1 + d.2, d.2)

/-- strtol and strtoll: the narrow-character parsers, using isspace. -/
def strtolM (l : List Nat) (base : Int) : Int × Nat × Nat :=
  strtolCore isspaceB l base

/-- Modelled from the spec: the wide whitespace classifier iswspace used by
wcstol is an external CRT macro not defined in this repository; in the
default C locale it accepts the same six whitespace characters as isspace. -/
def iswspaceM (c : Nat) : Bool := isspaceB c

/-- wcstol: the wide-character parser, same state machine over iswspace. -/
def wcstolM (l : List Nat) (base : Int) : Int × Nat × Nat :=
  strtolCore iswspaceM l base


/-! ### Helper lemmas, claim theorems and witnesses -/

/-- When the conversion loop consumed no digit it returns its accumulator
unchanged. -/
theorem digitLoop_zero (base : Int) (l : List Nat) (acc : Int)
    (h : (digitLoop base l acc).2 = 0) : (digitLoop base l acc).1 = acc := by
  cases l with
  | nil => rfl
  | cons c rest =>
    simp only [digitLoop] at h ⊢
    by_cases hc : c = 0
    · simp [hc]
    · simp only [if_neg hc] at h ⊢
      cases hd : digitVal? c with
      | none => simp [hd]
      | some d =>
        simp only [hd] at h ⊢
        by_cases hb : (d : Int) < base
        · simp only [if_pos hb] at h
          omega
        · simp [if_neg hb]

theorem memmoveFwd_below (n : Nat) : ∀ (m : Nat → Nat) (d s x : Nat), x < d →
    memmoveFwd m d s n x = m x := by
  induction n with
  | zero => intro m d s x _; rfl
  | succ k ih =>
    intro m d s x hx
    show memmoveFwd (memWrite m d (m s)) (d + 1) (s + 1) k x = m x
    rw [ih _ _ _ _ (by omega)]
    simp [memWrite]
    omega

theorem memmoveFwd_reads_src (n : Nat) : ∀ (m : Nat → Nat) (d s i : Nat),
    d < s → i < n → memmoveFwd m d s n (d + i) = m (s + i) := by
  induction n with
  | zero => intro m d s i _ hi; omega
  | succ k ih =>
    intro m d s i hds hi
    show memmoveFwd (memWrite m d (m s)) (d + 1) (s + 1) k (d + i) = m (s + i)
    cases i with
    | zero =>
      rw [memmoveFwd_below k _ _ _ _ (by omega)]
      simp [memWrite]
    | succ j =>
      have hdi : d + (j + 1) = (d + 1) + j := by omega
      have hsi : (s + 1) + j = s + (j + 1) := by omega
      rw [hdi, ih _ _ _ _ (by omega) (by omega), hsi]
      simp only [memWrite]
      rw [if_neg (by omega)]

theorem memmoveBwd_above (n : Nat) : ∀ (m : Nat → Nat) (d s x : Nat), d + n ≤ x →
    memmoveBwd m d s n x = m x := by
  induction n with
  | zero => intro m d s x _; rfl
  | succ k ih =>
    intro m d s x hx
    show memmoveBwd (memWrite m (d + k) (m (s + k))) d s k x = m x
    rw [ih _ _ _ _ (by omega)]
    simp only [memWrite]
    rw [if_neg (by omega)]

theorem memmoveBwd_reads_src (n : Nat) : ∀ (m : Nat → Nat) (d s i : Nat),
    s < d → i < n → memmoveBwd m d s n (d + i) = m (s + i) := by
  induction n with
  | zero => intro m d s i _ hi; omega
  | succ k ih =>
    intro m d s i hsd hi
    show memmoveBwd (memWrite m (d + k) (m (s + k))) d s k (d + i) = m (s + i)
    by_cases hik : i = k
    · subst hik
      rw [memmoveBwd_above i _ _ _ _ (by omega)]
      simp [memWrite]
    · rw [ih _ _ _ _ hsd (by omega)]
      simp only [memWrite]
      rw [if_neg (by omega)]

/-- C5: memmove is correct for arbitrarily overlapping ranges: afterwards
every offset i below n of the destination holds the byte the source range
held at offset i before any write began, and when the two addresses
coincide no write at all is performed (the memory is returned unchanged). -/
theorem memmove_overlap_correct (m : Nat → Nat) (d s n : Nat) :
    (∀ i, i < n → memmoveM m d s n (d + i) = m (s + i)) ∧
    memmoveM m d d n = m := by
  constructor
  · intro i hi
    unfold memmoveM
    rcases Nat.lt_trichotomy d s with h | h | h
    · rw [if_pos h]
      exact memmoveFwd_reads_src n m d s i h hi
    · subst h
      simp
    · rw [if_neg (by omega), if_pos h]
      exact memmoveBwd_reads_src n m d s i h hi
  · unfold memmoveM
    simp

/-- Witness for C5 at a concrete overlapping pair: destination 5, source 2,
length 3, offset 1; the byte landing at address 6 is the original byte at
address 3 (the identity memory maps it to 3). -/
theorem memmove_overlap_correct_witness :
    memmoveM (fun x => x) 5 2 3 (5 + 1) = (fun x : Nat => x) (2 + 1) :=
  (memmove_overlap_correct (fun x => x) 5 2 3).1 1 (by decide)

/-- Masking with the complement of a low-bit mask rounds down to a
multiple of 2 ^ k, for values below the word bound. -/
theorem land_mask_eq (x k w : Nat) (hk : k ≤ w) (hx : x < 2 ^ w) :
    x &&& ((2 ^ w - 1) ^^^ (2 ^ k - 1)) = x / 2 ^ k * 2 ^ k := by
  have hrhs : x / 2 ^ k * 2 ^ k = (x >>> k) <<< k := by
    rw [Nat.shiftRight_eq_div_pow, Nat.shiftLeft_eq]
  apply Nat.eq_of_testBit_eq
  intro i
  rw [Nat.testBit_land, Nat.testBit_xor, Nat.testBit_two_pow_sub_one,
    Nat.testBit_two_pow_sub_one, hrhs, Nat.testBit_shiftLeft, Nat.testBit_shiftRight]
  by_cases hik : i < k
  · have h64 : i < w := lt_of_lt_of_le hik hk
    simp [hik, h64, Nat.not_le.mpr hik]
  · have hki : k + (i - k) = i := by omega
    by_cases hiw : i < w
    · simp [hik, hiw, hki, Nat.le_of_not_lt hik]
    · have hfx : x.testBit i = false :=
        Nat.testBit_lt_two_pow
          (lt_of_lt_of_le hx (Nat.pow_le_pow_right (by norm_num) (by omega)))
      simp [hik, hiw, hki, hfx, Nat.le_of_not_lt hik]

/-- C7: for a power-of-two alignment, when the base allocation of
size + alignment + 8 bytes succeeds at raw (so the block lies within the
address space), the returned payload is the first address at or above
raw + 8 that is a multiple of the alignment, the word immediately before
the payload holds exactly raw, the payload plus size bytes stays inside
the underlying block, and _aligned_free applied to the payload frees
exactly raw. -/
theorem aligned_malloc_spec (m : Nat → Nat) (raw size k : Nat)
    (hov : raw + 8 + 2 ^ k ≤ 2 ^ 64) :
    (2 ^ k ∣ alignedOf raw (2 ^ k)) ∧
    raw + 8 ≤ alignedOf raw (2 ^ k) ∧
    (∀ q, 2 ^ k ∣ q → raw + 8 ≤ q → alignedOf raw (2 ^ k) ≤ q) ∧
    alignedOf raw (2 ^ k) + size ≤ raw + (size + 2 ^ k + 8) ∧
    (alignedMalloc m raw (2 ^ k)).1 (alignedOf raw (2 ^ k) - 8) = raw ∧
    alignedFree (alignedMalloc m raw (2 ^ k)).1 (alignedOf raw (2 ^ k)) = raw := by
  have ha : 0 < 2 ^ k := Nat.pos_pow_of_pos k (by norm_num)
  have hx : raw + 8 + 2 ^ k - 1 < 2 ^ 64 := by omega
  have hk64 : k ≤ 64 := by
    have h2 : (2 : Nat) ^ k ≤ 2 ^ 64 := by omega
    exact (Nat.pow_le_pow_iff_right (by norm_num)).mp h2
  have key : alignedOf raw (2 ^ k) =
      (raw + 8 + 2 ^ k - 1) / 2 ^ k * 2 ^ k := by
    unfold alignedOf
    rw [Nat.mod_eq_of_lt hx]
    exact land_mask_eq _ k 64 hk64 hx
  have hmod := Nat.div_add_mod (raw + 8 + 2 ^ k - 1) (2 ^ k)
  have hr : (raw + 8 + 2 ^ k - 1) % 2 ^ k ≤ 2 ^ k - 1 := by
    have := Nat.mod_lt (raw + 8 + 2 ^ k - 1) ha
    omega
  have hlow : raw + 8 ≤ alignedOf raw (2 ^ k) := by
    rw [key]
    have h1 : 2 ^ k * ((raw + 8 + 2 ^ k - 1) / 2 ^ k) =
        (raw + 8 + 2 ^ k - 1) - (raw + 8 + 2 ^ k - 1) % 2 ^ k :=
      Nat.eq_sub_of_add_eq hmod
    calc raw + 8 = (raw + 8 + 2 ^ k - 1) - (2 ^ k - 1) := by omega
    _ ≤ (raw + 8 + 2 ^ k - 1) - (raw + 8 + 2 ^ k - 1) % 2 ^ k :=
        Nat.sub_le_sub_left hr _
    _ = 2 ^ k * ((raw + 8 + 2 ^ k - 1) / 2 ^ k) := h1.symm
    _ = (raw + 8 + 2 ^ k - 1) / 2 ^ k * 2 ^ k := Nat.mul_comm _ _
  have hhigh : alignedOf raw (2 ^ k) ≤ raw + 8 + 2 ^ k - 1 := by
    rw [key]
    exact Nat.div_mul_le_self _ _
  refine ⟨?_, hlow, ?_, by omega, ?_, ?_⟩
  · rw [key]
    exact dvd_mul_left _ _
  · intro q hq hle
    rw [key]
    obtain ⟨c, rfl⟩ := hq
    have h2 : raw + 8 + 2 ^ k - 1 < (c + 1) * 2 ^ k := by
      have hc1 : (c + 1) * 2 ^ k = 2 ^ k * c + 2 ^ k := by ring
      rw [hc1]
      omega
    have hqc : (raw + 8 + 2 ^ k - 1) / 2 ^ k ≤ c := by
      have := (Nat.div_lt_iff_lt_mul ha).mpr h2
      omega
    calc (raw + 8 + 2 ^ k - 1) / 2 ^ k * 2 ^ k ≤ c * 2 ^ k :=
        Nat.mul_le_mul_right _ hqc
    _ = 2 ^ k * c := Nat.mul_comm _ _
  · simp [alignedMalloc, memWrite]
  · simp [alignedFree, alignedMalloc, memWrite]

/-- Witness for C7 at raw address 100, size 5, alignment 16: the payload
address is 112, the first multiple of 16 at or above 108, the stored
back-pointer reads back as 100 and _aligned_free frees 100. -/
theorem aligned_malloc_spec_witness :
    100 + 8 ≤ alignedOf 100 (2 ^ 4) ∧ (2 ^ 4 ∣ alignedOf 100 (2 ^ 4)) ∧
    (alignedMalloc (fun _ => 0) 100 (2 ^ 4)).1 (alignedOf 100 (2 ^ 4) - 8) = 100 ∧
    alignedFree (alignedMalloc (fun _ => 0) 100 (2 ^ 4)).1 (alignedOf 100 (2 ^ 4)) = 100 :=
  ⟨(aligned_malloc_spec (fun _ => 0) 100 5 4 (by norm_num)).2.1,
   (aligned_malloc_spec (fun _ => 0) 100 5 4 (by norm_num)).1,
   (aligned_malloc_spec (fun _ => 0) 100 5 4 (by norm_num)).2.2.2.2.1,
   (aligned_malloc_spec (fun _ => 0) 100 5 4 (by norm_num)).2.2.2.2.2⟩


/-- C9: the single-element conversions return the element count produced
by the OS primitive on success (a positive number), and a non-positive
sentinel on a null input pointer or a malformed input (wctomb: 0 in both
cases; mbtowc: 0 for null, -1 for malformed); every sentinel is therefore
distinguished from every legitimate positive result. -/
theorem wctomb_mbtowc_sentinels (w2mb : Nat → Nat) (mb2w : List Nat → Nat)
    (wc : Nat) (s : List Nat) (n : Nat) :
    wctomb w2mb true wc = 0 ∧
    (w2mb wc = 0 → wctomb w2mb false wc = 0) ∧
    (0 < w2mb wc → wctomb w2mb false wc = (w2mb wc : Int) ∧
      0 < wctomb w2mb false wc) ∧
    mbtowc mb2w true s n = 0 ∧
    (mb2w (s.take n) = 0 → mbtowc mb2w false s n = -1) ∧
    (0 < mb2w (s.take n) → mbtowc mb2w false s n = (mb2w (s.take n) : Int) ∧
      0 < mbtowc mb2w false s n) ∧
    wctomb w2mb true wc ≤ 0 ∧ mbtowc mb2w true s n ≤ 0 := by
  refine ⟨rfl, ?_, ?_, rfl, ?_, ?_, by simp [wctomb], by simp [mbtowc]⟩
  · intro h
    simp [wctomb, h]
  · intro h
    constructor
    · rfl
    · simp only [wctomb, if_neg Bool.false_ne_true]
      exact_mod_cast h
  · intro h
    simp [mbtowc, h]
  · intro h
    constructor
    · simp [mbtowc, h]
    · simp [mbtowc, h]

/-- Witness for C9 with a primitive that fails on wide character 0 and
otherwise produces two bytes, and a byte primitive that always fails:
null input yields 0, malformed input yields 0 (wctomb) and -1 (mbtowc),
a successful conversion yields the positive count 2. -/
theorem wctomb_mbtowc_sentinels_witness :
    wctomb (fun w => if w = 0 then 0 else 2) true 65 = 0 ∧
    wctomb (fun w => if w = 0 then 0 else 2) false 0 = 0 ∧
    wctomb (fun w => if w = 0 then 0 else 2) false 65 = 2 ∧
    mbtowc (fun _ => 0) true [200] 1 = 0 ∧
    mbtowc (fun _ => 0) false [200] 1 = -1 :=
  ⟨(wctomb_mbtowc_sentinels (fun w => if w = 0 then 0 else 2) (fun _ => 0) 65 [200] 1).1,
   (wctomb_mbtowc_sentinels (fun w => if w = 0 then 0 else 2) (fun _ => 0) 0 [200] 1).2.1 (by decide),
   ((wctomb_mbtowc_sentinels (fun w => if w = 0 then 0 else 2) (fun _ => 0) 65 [200] 1).2.2.1 (by decide)).1,
   (wctomb_mbtowc_sentinels (fun w => if w = 0 then 0 else 2) (fun _ => 0) 65 [200] 1).2.2.2.1,
   (wctomb_mbtowc_sentinels (fun w => if w = 0 then 0 else 2) (fun _ => 0) 65 [200] 1).2.2.2.2.1 (by decide)⟩

/-! ### Claim theorems (first group) -/

/-- C1: evaluation of the code at a failing input.  For src of length 1 and
count 2 (source shorter than the bound), strncpy performs three writes,
writing one element past the count-element limit the claim asserts: the
claim says exactly count = 2 elements of dest are written and index 2 is
never touched, but the code writes the value 0 at index 2. -/
theorem strncpy_writes_past_count :
    strncpyWrites [97] 2 = [97, 0, 0] ∧ (strncpyWrites [97] 2).length = 3 := by
  constructor
  · rfl
  · rfl

/-- C2: evaluation of the code at a failing input.  With dest holding "a",
src holding "bc" and count 1, the claim says the result is dest followed by
the first count = 1 elements of src followed by a terminator, that is "ab";
the code exhausts count, then overwrites the just-copied element with the
terminator, yielding "a". -/
theorem strncat_clobbers_last_element :
    strncatModel [97] [98, 99] 1 = [97] ∧ strncatModel [97] [98, 99] 1 ≠ [97, 98] := by
  constructor
  · rfl
  · intro h
    simp [strncatModel, catLoop] at h

/-- C6: realloc with a null block is definitionally the same call as malloc
(same result and same heap effect), and realloc of a non-null block with
size zero frees the block and returns null. -/
theorem realloc_null_and_zero {σ : Type} (H : OsHeap σ) (s : σ) (n : Nat) (p : Nat) :
    realloc H s none n = malloc H s n ∧
    realloc H s (some p) 0 = (H.heapFree s p, none) := by
  constructor
  · rfl
  · simp [realloc]

/-- C10: when the scratch allocation fails, qsort returns before performing
any write, so the array is returned exactly as given; the failure is atomic
and unreported. -/
theorem qsort_alloc_fail_noop {α : Type} (cmp : α → α → Int) (l : List α) :
    qsortModel false cmp l = l := rfl

/-- C3 counterexample: on the input "+" with base 10 no digit is consumed,
yet the end pointer is advanced past the sign (offset 1), not left at the
start, so the claimed equivalence between end pointer at start and no
digits consumed is false for the code. -/
theorem strtol_endptr_claim_cex :
    ¬ (((strtolM [43] 10).2.1 = 0) ↔ ((strtolM [43] 10).2.2 = 0)) := by
  decide

/-- C3 (amended): for every variant (any whitespace classifier, so strtol,
strtoll and wcstol alike), when no digits are consumed the numeric result
is zero; the end pointer is the total count of consumed characters,
decomposing as whitespace + sign + base prefix + digits; hence it equals
the original start iff no characters at all were consumed, not iff no
digits were consumed. -/
theorem strtol_endptr_amended (isSp : Nat → Bool) (l : List Nat) (base : Int) :
    ((strtolCore isSp l base).2.2 = 0 → (strtolCore isSp l base).1 = 0) ∧
    ((strtolCore isSp l base).2.1 =
      (skipWs isSp l).1 + (readSign (skipWs isSp l).2).2.1 +
      (detectBase base (readSign (skipWs isSp l).2).2.2).2.1 +
      (strtolCore isSp l base).2.2) ∧
    ((strtolCore isSp l base).2.1 = 0 ↔
      ((skipWs isSp l).1 = 0 ∧ (readSign (skipWs isSp l).2).2.1 = 0 ∧
       (detectBase base (readSign (skipWs isSp l).2).2.2).2.1 = 0 ∧
       (strtolCore isSp l base).2.2 = 0)) := by
  have hval : (strtolCore isSp l base).1 =
      (if (readSign (skipWs isSp l).2).1
       then -(digitLoop (detectBase base (readSign (skipWs isSp l).2).2.2).1
               (detectBase base (readSign (skipWs isSp l).2).2.2).2.2 0).1
       else (digitLoop (detectBase base (readSign (skipWs isSp l).2).2.2).1
               (detectBase base (readSign (skipWs isSp l).2).2.2).2.2 0).1) := rfl
  have hnd : (strtolCore isSp l base).2.2 =
      (digitLoop (detectBase base (readSign (skipWs isSp l).2).2.2).1
        (detectBase base (readSign (skipWs isSp l).2).2.2).2.2 0).2 := rfl
  have hsum : (strtolCore isSp l base).2.1 =
      (skipWs isSp l).1 + (readSign (skipWs isSp l).2).2.1 +
      (detectBase base (readSign (skipWs isSp l).2).2.2).2.1 +
      (digitLoop (detectBase base (readSign (skipWs isSp l).2).2.2).1
        (detectBase base (readSign (skipWs isSp l).2).2.2).2.2 0).2 := rfl
  refine ⟨?_, ?_, ?_⟩
  · intro h
    rw [hnd] at h
    have hz := digitLoop_zero _ _ _ h
    rw [hval, hz]
    split <;> simp
  · rw [hsum, hnd]
  · rw [hsum, hnd]
    omega

/-- Witness for the amended C3 theorem at the concrete counterexample
input "+" with base 10: result zero, end pointer offset 1. -/
theorem strtol_endptr_amended_witness :
    (strtolCore isspaceB [43] 10).1 = 0 ∧ (strtolCore isspaceB [43] 10).2.1 = 1 :=
  ⟨(strtol_endptr_amended isspaceB [43] 10).1 (by decide), by decide⟩

/-- C4: base auto-detection.  With base 0, a leading 0 then x or X selects
base 16 consuming both prefix characters, any other leading 0 selects base
8 consuming that one character, any other leading character selects base
10 consuming nothing; with explicit base 16 a 0x or 0X prefix is consumed
when present; and strtol("0x1A", 0) yields 26 consuming all four
characters. -/
theorem strtol_base_detection (c : Nat) (rest : List Nat) :
    (detectBase 0 (48 :: 120 :: rest) = (16, 2, rest)) ∧
    (detectBase 0 (48 :: 88 :: rest) = (16, 2, rest)) ∧
    (c ≠ 120 → c ≠ 88 → detectBase 0 (48 :: c :: rest) = (8, 1, c :: rest)) ∧
    (detectBase 0 [48] = (8, 1, [])) ∧
    (c ≠ 48 → detectBase 0 (c :: rest) = (10, 0, c :: rest)) ∧
    (detectBase 16 (48 :: 120 :: rest) = (16, 2, rest)) ∧
    (detectBase 16 (48 :: 88 :: rest) = (16, 2, rest)) ∧
    (strtolM [48, 120, 49, 65] 0 = (26, 4, 2)) := by
  refine ⟨by simp [detectBase], by simp [detectBase], ?_, by simp [detectBase], ?_,
    by simp [detectBase], by simp [detectBase], by decide⟩
  · intro h1 h2
    simp [detectBase, h1, h2]
  · intro h
    simp [detectBase, h]

/-- Witness for C4 at concrete inputs: the digit 5 after a leading zero
selects base 8, a bare 5 selects base 10, and the full parse of "0x1A"
yields 26 with all four characters consumed. -/
theorem strtol_base_detection_witness :
    detectBase 0 (48 :: 53 :: []) = (8, 1, [53]) ∧
    detectBase 0 (53 :: []) = (10, 0, [53]) ∧
    strtolM [48, 120, 49, 65] 0 = (26, 4, 2) :=
  ⟨(strtol_base_detection 53 []).2.2.1 (by decide) (by decide),
   (strtol_base_detection 53 []).2.2.2.2.1 (by decide),
   (strtol_base_detection 53 []).2.2.2.2.2.2.2⟩

/-! ### qsort correctness lemmas -/

/-- The shift scan on the reversed prefix places x after the leading run
of elements that compare strictly greater than x. -/
theorem insLoopRev_eq {α : Type} (cmp : α → α → Int) (x : α) (s : List α) :
    insLoopRev cmp x s =
      s.takeWhile (fun e => decide (0 < cmp e x)) ++
        x :: s.dropWhile (fun e => decide (0 < cmp e x)) := by
  induction s with
  | nil => rfl
  | cons e rest ih =>
    by_cases h : 0 < cmp e x
    · simp [insLoopRev, List.takeWhile_cons, List.dropWhile_cons, h, ih]
    · simp [insLoopRev, List.takeWhile_cons, List.dropWhile_cons, h]

/-- The first element surviving dropWhile fails the predicate. -/
theorem dropWhile_head_not {α : Type} (p : α → Bool) (l : List α) :
    ∀ e ∈ (l.dropWhile p).head?, p e = false := by
  induction l with
  | nil => intro e he; simp at he
  | cons a rest ih =>
    intro e he
    rw [List.dropWhile_cons] at he
    by_cases h : p a = true
    · exact ih e (by simpa [h] using he)
    · simp [h] at he
      subst he
      simpa using h

/-- Decomposition of one insertion step: the prefix acc splits as A ++ B
with x inserted between them; every element of B compares strictly
greater than x (these are the shifted elements), and when A is nonempty
its last element does not (it is where the scan stopped). -/
theorem insertStep_split {α : Type} (cmp : α → α → Int) (x : α) (acc : List α) :
    ∃ A B, acc = A ++ B ∧ insertStep cmp acc x = A ++ x :: B ∧
      (∀ e ∈ B, 0 < cmp e x) ∧
      (A = [] ∨ ∃ A' d, A = A' ++ [d] ∧ ¬ 0 < cmp d x) := by
  refine ⟨(acc.reverse.dropWhile (fun e => decide (0 < cmp e x))).reverse,
    (acc.reverse.takeWhile (fun e => decide (0 < cmp e x))).reverse, ?_, ?_, ?_, ?_⟩
  · rw [← List.reverse_append, List.takeWhile_append_dropWhile, List.reverse_reverse]
  · unfold insertStep
    rw [insLoopRev_eq]
    simp
  · intro e he
    rw [List.mem_reverse] at he
    have := List.mem_takeWhile_imp he
    simpa using this
  · cases hD : acc.reverse.dropWhile (fun e => decide (0 < cmp e x)) with
    | nil => left; simp
    | cons d D =>
      right
      refine ⟨D.reverse, d, by simp, ?_⟩
      have := dropWhile_head_not (fun e => decide (0 < cmp e x)) acc.reverse d
        (by rw [hD]; rfl)
      simpa using this

/-- One insertion step permutes to consing the new element. -/
theorem insertStep_perm {α : Type} (cmp : α → α → Int) (x : α) (acc : List α) :
    List.Perm (insertStep cmp acc x) (x :: acc) := by
  obtain ⟨A, B, hacc, hins, _, _⟩ := insertStep_split cmp x acc
  rw [hins, hacc]
  exact List.perm_middle

/-- One insertion step preserves sortedness under a total transitive
comparator. -/
theorem insertStep_sorted {α : Type} (cmp : α → α → Int)
    (htot : ∀ a b, cmp a b ≤ 0 ∨ cmp b a ≤ 0)
    (htrans : ∀ a b c, cmp a b ≤ 0 → cmp b c ≤ 0 → cmp a c ≤ 0)
    (x : α) (acc : List α) (hs : acc.Pairwise (fun a b => cmp a b ≤ 0)) :
    (insertStep cmp acc x).Pairwise (fun a b => cmp a b ≤ 0) := by
  obtain ⟨A, B, hacc, hins, hB, hlast⟩ := insertStep_split cmp x acc
  subst hacc
  rw [List.pairwise_append] at hs
  obtain ⟨hA, hBp, hAB⟩ := hs
  rw [hins, List.pairwise_append]
  refine ⟨hA, ?_, ?_⟩
  · rw [List.pairwise_cons]
    refine ⟨fun b hb => ?_, hBp⟩
    rcases htot x b with h | h
    · exact h
    · exact absurd h (by have := hB b hb; omega)
  · intro a ha c hc
    have hax : cmp a x ≤ 0 := by
      rcases hlast with h0 | ⟨A', d, hAd, hd⟩
      · subst h0; simp at ha
      · subst hAd
        have hdx : cmp d x ≤ 0 := by omega
        rcases List.mem_append.mp ha with ha' | ha'
        · have had : cmp a d ≤ 0 := by
            rw [List.pairwise_append] at hA
            exact hA.2.2 a ha' d (by simp)
          exact htrans a d x had hdx
        · have : a = d := by simpa using ha'
          subst this; exact hdx
    rcases List.mem_cons.mp hc with rfl | hcB
    · exact hax
    · exact hAB a ha c hcB

/-- One insertion step appends the new element after all elements of the
prefix that the comparator orders as equal to a fixed key (transitivity
only): no equal element is ever shifted past the inserted one. -/
theorem insertStep_filter {α : Type} (cmp : α → α → Int)
    (htrans : ∀ a b c, cmp a b ≤ 0 → cmp b c ≤ 0 → cmp a c ≤ 0)
    (key x : α) (acc : List α) :
    (insertStep cmp acc x).filter
        (fun e => decide (cmp e key ≤ 0) && decide (cmp key e ≤ 0)) =
      acc.filter (fun e => decide (cmp e key ≤ 0) && decide (cmp key e ≤ 0)) ++
        (if cmp x key ≤ 0 ∧ cmp key x ≤ 0 then [x] else []) := by
  obtain ⟨A, B, hacc, hins, hB, _⟩ := insertStep_split cmp x acc
  subst hacc
  rw [hins, List.filter_append, List.filter_append, List.filter_cons]
  by_cases hx : cmp x key ≤ 0 ∧ cmp key x ≤ 0
  · have hBnil : B.filter
        (fun e => decide (cmp e key ≤ 0) && decide (cmp key e ≤ 0)) = [] := by
      rw [List.filter_eq_nil_iff]
      intro e he
      have hgt := hB e he
      intro hEQ
      simp only [Bool.and_eq_true, decide_eq_true_eq] at hEQ
      have : cmp e x ≤ 0 := htrans e key x hEQ.1 hx.2
      omega
    simp [hx, hBnil]
  · have hx' : ¬ ((decide (cmp x key ≤ 0) && decide (cmp key x ≤ 0)) = true) := by
      simpa using hx
    simp [hx, hx']

/-- Folding insertion steps over the input: the result is a permutation of
prefix plus input. -/
theorem qsort_foldl_perm {α : Type} (cmp : α → α → Int) :
    ∀ (l acc : List α), List.Perm (l.foldl (insertStep cmp) acc) (acc ++ l) := by
  intro l
  induction l with
  | nil => intro acc; simp
  | cons x l ih =>
    intro acc
    have h1 : List.Perm (l.foldl (insertStep cmp) (insertStep cmp acc x))
        ((insertStep cmp acc x) ++ l) := ih (insertStep cmp acc x)
    have h2 : List.Perm ((insertStep cmp acc x) ++ l) ((x :: acc) ++ l) :=
      (insertStep_perm cmp x acc).append_right l
    have h3 : List.Perm ((x :: acc) ++ l) (acc ++ x :: l) := by
      simpa using List.perm_middle.symm
    exact (h1.trans h2).trans h3

/-- Folding insertion steps keeps the accumulated prefix sorted. -/
theorem qsort_foldl_sorted {α : Type} (cmp : α → α → Int)
    (htot : ∀ a b, cmp a b ≤ 0 ∨ cmp b a ≤ 0)
    (htrans : ∀ a b c, cmp a b ≤ 0 → cmp b c ≤ 0 → cmp a c ≤ 0) :
    ∀ (l acc : List α), acc.Pairwise (fun a b => cmp a b ≤ 0) →
      (l.foldl (insertStep cmp) acc).Pairwise (fun a b => cmp a b ≤ 0) := by
  intro l
  induction l with
  | nil => intro acc h; exact h
  | cons x l ih =>
    intro acc h
    exact ih (insertStep cmp acc x) (insertStep_sorted cmp htot htrans x acc h)

/-- Folding insertion steps preserves, for every key, the subsequence of
elements the comparator orders as equal to that key, in order. -/
theorem qsort_foldl_filter {α : Type} (cmp : α → α → Int)
    (htrans : ∀ a b c, cmp a b ≤ 0 → cmp b c ≤ 0 → cmp a c ≤ 0) (key : α) :
    ∀ (l acc : List α),
      (l.foldl (insertStep cmp) acc).filter
          (fun e => decide (cmp e key ≤ 0) && decide (cmp key e ≤ 0)) =
        acc.filter (fun e => decide (cmp e key ≤ 0) && decide (cmp key e ≤ 0)) ++
          l.filter (fun e => decide (cmp e key ≤ 0) && decide (cmp key e ≤ 0)) := by
  intro l
  induction l with
  | nil => intro acc; simp
  | cons x l ih =>
    intro acc
    have h1 := ih (insertStep cmp acc x)
    have h2 := insertStep_filter cmp htrans key x acc
    show (l.foldl (insertStep cmp) (insertStep cmp acc x)).filter _ = _
    rw [h1, h2, List.filter_cons]
    by_cases hx : cmp x key ≤ 0 ∧ cmp key x ≤ 0
    · simp [hx]
    · have hx' : ¬ ((decide (cmp x key ≤ 0) && decide (cmp key x ≤ 0)) = true) := by
        simpa using hx
      simp [hx, hx']

/-- C8: when the scratch allocation succeeds, qsort applied to any list and
any comparator inducing a total preorder yields a permutation of the input
(same multiset) that is non-decreasing under the comparator, and the sort
is stable: for every key, the subsequence of elements the comparator
orders as equal to that key appears in the output exactly as in the input
(same elements, same relative order). -/
theorem qsort_sorts_stable {α : Type} (cmp : α → α → Int) (l : List α)
    (htot : ∀ a b, cmp a b ≤ 0 ∨ cmp b a ≤ 0)
    (htrans : ∀ a b c, cmp a b ≤ 0 → cmp b c ≤ 0 → cmp a c ≤ 0) :
    List.Perm (qsortModel true cmp l) l ∧
    (qsortModel true cmp l).Pairwise (fun a b => cmp a b ≤ 0) ∧
    ∀ key, (qsortModel true cmp l).filter
        (fun e => decide (cmp e key ≤ 0) && decide (cmp key e ≤ 0)) =
      l.filter (fun e => decide (cmp e key ≤ 0) && decide (cmp key e ≤ 0)) := by
  refine ⟨?_, ?_, ?_⟩
  · have := qsort_foldl_perm cmp l []
    simpa [qsortModel] using this
  · have := qsort_foldl_sorted cmp htot htrans l [] (by simp)
    simpa [qsortModel] using this
  · intro key
    have := qsort_foldl_filter cmp htrans key l []
    simpa [qsortModel] using this

/-- Witness for C8 on the list [2, 0, 1, 0] over Fin 3 with the natural
comparator: the output is a permutation of the input, is non-decreasing,
and the two zeros keep their relative order (the filter at key 0 agrees
with the input's). -/
theorem qsort_sorts_stable_witness :
    List.Perm (qsortModel true (fun a b : Fin 3 => (a.val : Int) - b.val) [2, 0, 1, 0])
      [2, 0, 1, 0] ∧
    (qsortModel true (fun a b : Fin 3 => (a.val : Int) - b.val) [2, 0, 1, 0]).Pairwise
      (fun a b => (a.val : Int) - b.val ≤ 0) ∧
    (qsortModel true (fun a b : Fin 3 => (a.val : Int) - b.val) [2, 0, 1, 0]).filter
        (fun e => decide ((e.val : Int) - 0 ≤ 0) && decide ((0 : Int) - e.val ≤ 0)) =
      ([2, 0, 1, 0] : List (Fin 3)).filter
        (fun e => decide ((e.val : Int) - 0 ≤ 0) && decide ((0 : Int) - e.val ≤ 0)) :=
  ⟨(qsort_sorts_stable (fun a b : Fin 3 => (a.val : Int) - b.val) [2, 0, 1, 0]
      (by decide) (by decide)).1,
   (qsort_sorts_stable (fun a b : Fin 3 => (a.val : Int) - b.val) [2, 0, 1, 0]
      (by decide) (by decide)).2.1,
   (qsort_sorts_stable (fun a b : Fin 3 => (a.val : Int) - b.val) [2, 0, 1, 0]
      (by decide) (by decide)).2.2 0⟩

end CRT
